import Mathlib

/-!
Verification development for the multiprocess embedding-cache and
rate-limiting subsystem of the Aphori.st data-science scripts
(`mp_puzzle_generation` and the surrounding pipeline modules).

Each namespace embeds one Python module shallowly:

* `RateLimiterModel` — the concurrency gate of
  `SharedRateLimiter._wait_for_concurrent_limit` /
  `WorkerRateLimiter._wait_for_concurrent_limit` and the paired release in
  the `finally` block of `acquire_request_slot`, plus the corresponding
  gate of `SimpleSharedRateLimiter` (`SimpleRateLimiter.py`).
* `CosineModel` — `ImprovedThemeWorker._cosine_similarity`
  (textually identical to `ThemeWorker._cosine_similarity`) over exact
  reals.
* `DedupModel` — `ImprovedThemeWorker._is_duplicate_word` /
  `ThemeWorker._is_duplicate_word` and the deduplication loop at the top
  of `process_task` / `_process_theme_task`.
* `WorkerModel` — `ImprovedThemeWorker.process_task` (structurally
  identical to `ThemeWorker._process_theme_task` in everything the
  verified properties touch).
* `AggregatorModel` — `ResultAggregator._create_puzzles_from_groups` and
  `ResultAggregator._create_puzzle_from_themes`.
* `CacheModel` — `SharedEmbeddingCache` (`get`, `put`, `backup_to_csv`,
  `_load_from_csv`, `clear`).
* `RetryModel` — the retry loop of
  `GeminiEmbeddingProvider.generate_embeddings`
  (`pipeline/gemini_enhancer.py`).

Modelling conventions: Python strings are `List Char` (`Word`); Python
floats are exact reals; shared mutable counters are explicit state passed
through labelled transition relations, with each lock-protected critical
section of the Python code treated as one atomic step; fallible
operations return `Option`/`Except`.
-/

namespace RateLimiterModel

/--
One interaction with the shared `active_requests` counter of
`SharedRateLimiter` / `WorkerRateLimiter` (the two classes have
line-for-line identical `_wait_for_concurrent_limit` and release logic):

* `acquire` — the guarded increment inside `_wait_for_concurrent_limit`
  (`if active_requests < max_concurrent_requests: active_requests += 1`,
  performed under `active_lock`);
* `timeoutAcquire` — the unconditional increment taken after the
  60-second spin-wait timeout (`if wait_time > 60: ...
  active_requests += 1`, also under `active_lock`);
* `release` — the `finally` block of `acquire_request_slot`
  (`active_requests = max(0, active_requests - 1)`), which runs whether
  the protected call returns or raises.
-/
inductive SlotStep
  | acquire
  | timeoutAcquire
  | release
  deriving DecidableEq

/--
Small-step semantics of the `active_requests` counter of
`SharedRateLimiter` / `WorkerRateLimiter`.  Each lock-protected critical
section is one atomic step; arbitrary interleavings of worker processes
are arbitrary step sequences.  The timeout increment carries no guard:
the code performs it after observing a full gate on an earlier poll, and
other workers may have changed the counter between that poll and the
increment.
-/
inductive ConcStep (maxConc : Int) : SlotStep → Int → Int → Prop
  | acquire (a : Int) : a < maxConc → ConcStep maxConc .acquire a (a + 1)
  | timeoutAcquire (a : Int) : ConcStep maxConc .timeoutAcquire a (a + 1)
  | release (a : Int) : ConcStep maxConc .release a (max 0 (a - 1))

/--
`ConcTrace maxConc a tr b`: starting from counter value `a`, the labelled
step sequence `tr` (an interleaving of the workers' critical sections)
leaves the counter at `b`.  Every intermediate state of an execution is
the endpoint of a prefix trace, so universally quantified statements over
traces cover "at no point" claims.
-/
inductive ConcTrace (maxConc : Int) : Int → List SlotStep → Int → Prop
  | nil (a : Int) : ConcTrace maxConc a [] a
  | cons {s : SlotStep} {a b c : Int} {l : List SlotStep} :
      ConcStep maxConc s a b → ConcTrace maxConc b l c →
      ConcTrace maxConc a (s :: l) c

/--
One interaction with the `active_requests` counter of
`SimpleSharedRateLimiter` (`SimpleRateLimiter.py`): its
`_wait_for_concurrent_limit` has no timeout bypass, and its release is a
plain decrement (`self.active_requests.value -= 1`) without the
`max(0, ·)` clamp.
-/
inductive SimpleSlotStep
  | acquire
  | release
  deriving DecidableEq

/-- Small-step semantics of `SimpleSharedRateLimiter`'s counter. -/
inductive SimpleConcStep (maxConc : Int) : SimpleSlotStep → Int → Int → Prop
  | acquire (a : Int) : a < maxConc → SimpleConcStep maxConc .acquire a (a + 1)
  | release (a : Int) : SimpleConcStep maxConc .release a (a - 1)

/-- Trace relation for `SimpleSharedRateLimiter`'s counter. -/
inductive SimpleConcTrace (maxConc : Int) :
    Int → List SimpleSlotStep → Int → Prop
  | nil (a : Int) : SimpleConcTrace maxConc a [] a
  | cons {s : SimpleSlotStep} {a b c : Int} {l : List SimpleSlotStep} :
      SimpleConcStep maxConc s a b → SimpleConcTrace maxConc b l c →
      SimpleConcTrace maxConc a (s :: l) c

end RateLimiterModel

namespace CosineModel

/--
`np.dot(a_np, b_np)` for two 1-D float vectors, over exact reals.
(For vectors of unequal length `np.dot` raises; `cosineSimilarity` guards
that case separately, mirroring the `try/except` of the source.)
-/
def dotList (a b : List ℝ) : ℝ := (List.zipWith (· * ·) a b).sum

/-- `np.linalg.norm(a_np)`: the Euclidean norm `sqrt (Σ aᵢ²)`. -/
noncomputable def normList (a : List ℝ) : ℝ := Real.sqrt (dotList a a)

/--
`ImprovedThemeWorker._cosine_similarity` (= `ThemeWorker._cosine_similarity`):

```
dot_product = np.dot(a_np, b_np)
norm_a = np.linalg.norm(a_np); norm_b = np.linalg.norm(b_np)
if norm_a == 0 or norm_b == 0: return 0.0
return float(dot_product / (norm_a * norm_b))
```

wrapped in `try/except` returning `0.0` on any exception — in particular
on the shape mismatch `np.dot` raises for unequal-length vectors, which
is the first guard below.  Exact-real arithmetic replaces float
arithmetic.
-/
noncomputable def cosineSimilarity (a b : List ℝ) : ℝ :=
  if a.length ≠ b.length then 0
  else if normList a = 0 ∨ normList b = 0 then 0
  else dotList a b / (normList a * normList b)

end CosineModel

namespace DedupModel

/-- A Python string, as its sequence of code points. -/
abbrev Word := List Char

/--
`_normalize_key` / `_normalize_word`: `word.lower().strip()`.
`lower` is modelled per-character by `Char.toLower` and `strip` by
dropping leading and trailing whitespace (ASCII-faithful approximations
of the Python Unicode versions).
-/
def normalizeKey (w : Word) : Word :=
  (((w.map Char.toLower).dropWhile Char.isWhitespace).reverse.dropWhile
      Char.isWhitespace).reverse

/--
`ImprovedThemeWorker._is_duplicate_word` (= `ThemeWorker._is_duplicate_word`),
as the proposition "the method returns `True`":

1. `word_lower in processed_words` — case-insensitive match;
2. `word_lower.endswith('s') and len(word_lower) > 1 and
   word_lower[:-1] in processed_words` — plural form;
3. `word_lower + 's' in processed_words` — singular of an existing
   plural.

The returned match/reason metadata is logged only and is not modelled.
-/
def isDuplicateWord (word : Word) (processed : List Word) : Prop :=
  normalizeKey word ∈ processed ∨
    ((normalizeKey word).getLast? = some 's' ∧ 1 < (normalizeKey word).length ∧
      (normalizeKey word).dropLast ∈ processed) ∨
    (normalizeKey word ++ ['s']) ∈ processed

instance (word : Word) (processed : List Word) :
    Decidable (isDuplicateWord word processed) := by
  unfold isDuplicateWord
  infer_instance

/--
One iteration of the dedup loop at the top of `process_task` /
`_process_theme_task`: state is `(processed_words, unique_words)`;
a duplicate is skipped, otherwise the normalized key is added to
`processed_words` and the original word to `unique_words`.
`processed_words` is a Python `set`, modelled as the list of keys in
insertion order (only membership is ever queried).
-/
def dedupStep (st : List Word × List Word) (w : Word) : List Word × List Word :=
  if isDuplicateWord w st.1 then st else (st.1 ++ [normalizeKey w], st.2 ++ [w])

/-- The `unique_words` produced by the dedup loop over the candidates. -/
def dedupCandidates (candidates : List Word) : List Word :=
  (candidates.foldl dedupStep ([], [])).2

/--
Spec-side dropping rule of the deduplication policy, stated against the
kept words themselves (for comparison with `isDuplicateWord`, which works
on the set of normalized keys): a later candidate `w` matches a kept word
`k` when their normalized forms are equal, or `w`'s normalized form is
`k`'s with a trailing `'s'` appended (only applicable when `k`'s
normalized form is nonempty — the code's `len(word_lower) > 1` guard), or
`k`'s normalized form is `w`'s with a trailing `'s'` appended.
-/
def matchesKeptRule (w k : Word) : Prop :=
  normalizeKey w = normalizeKey k ∨
    (normalizeKey k ≠ [] ∧ normalizeKey w = normalizeKey k ++ ['s']) ∨
    normalizeKey k = normalizeKey w ++ ['s']

instance (w k : Word) : Decidable (matchesKeptRule w k) := by
  unfold matchesKeptRule
  infer_instance

end DedupModel

namespace WorkerModel

open DedupModel CosineModel

/--
Modelled from the spec: `ThemeProcessingResult` (its defining module
`ThemeProcessingTask.py` is imported by the workers but is not present in
the sources) — "outcome of processing one task: `task_id`, `theme`,
`success`; on success `theme_embedding`, `selected_words`,
`word_embeddings` (parallel vector list), `similarities` (parallel float
list); on failure `error_message` and no vector data."  The statistics
and timing fields (`api_calls_made`, `cache_hits`, `cache_misses`,
`processing_time`) are not referenced by any verified property and are
omitted.
-/
structure ThemeProcessingResult where
  task_id : String
  theme : Word
  success : Bool
  theme_embedding : Option (List ℝ)
  word_embeddings : List (List ℝ)
  similarities : List ℝ
  selected_words : List Word
  error_message : String

/--
Modelled from the spec: `ThemeProcessingResult.create_error_result`
(defined in the missing `ThemeProcessingTask.py`) — a failed result with
the given error message and no vector data.
-/
def createErrorResult (taskId : String) (theme : Word) (msg : String) :
    ThemeProcessingResult :=
  { task_id := taskId, theme := theme, success := false,
    theme_embedding := none, word_embeddings := [], similarities := [],
    selected_words := [], error_message := msg }

/--
Python truthiness of an embedding slot (`if theme_embedding:` /
`if word_embedding:`): a valid embedding is present and nonempty.
-/
def isValidEmb : Option (List ℝ) → Bool
  | some (_ :: _) => true
  | _ => false

/--
Number of deduplicated candidates that receive a valid embedding from the
embedding oracle.
-/
def validEmbeddingCount (embed : Word → Option (List ℝ)) (ws : List Word) :
    Nat :=
  (ws.filter fun w => isValidEmb (embed w)).length

/--
Comparison used by `word_results.sort(key=lambda x: x[2], reverse=True)`:
stable descending order on the similarity component.
-/
noncomputable def simGE (x y : Word × List ℝ × ℝ) : Bool :=
  decide (y.2.2 ≤ x.2.2)

/--
The similarity loop of `process_task` (lines building `word_results`):
each unique word whose embedding slot is valid contributes
`(word, word_embedding, cosine_similarity(theme_embedding, word_embedding))`,
in candidate order; words with missing or empty embeddings are skipped
with a warning.
-/
noncomputable def wordResultsOf (embed : Word → Option (List ℝ))
    (themeEmbedding : List ℝ) (ws : List Word) : List (Word × List ℝ × ℝ) :=
  ws.filterMap fun w =>
    match embed w with
    | some (e0 :: erest) =>
        some (w, e0 :: erest, cosineSimilarity themeEmbedding (e0 :: erest))
    | _ => none

/--
`ImprovedThemeWorker.process_task` (= `ThemeWorker._process_theme_task`),
shallowly embedded.  The batched, cache-first embedding fetch
`_get_embeddings_with_cache([theme] + unique_words)` is abstracted by the
oracle `embed : Word → Option (List ℝ)` giving each text's slot in
`batch_embeddings` (the fetch always returns one slot per input text, so
the defensive `len(batch_embeddings) != len(batch_texts)` branch is
unreachable and is not modelled); cache/statistics side effects are
outside the verified properties and are dropped.
-/
noncomputable def process_task (wordsPerTheme : Nat)
    (embed : Word → Option (List ℝ)) (taskId : String) (theme : Word)
    (candidates : List Word) : ThemeProcessingResult :=
  let uniqueWords := dedupCandidates candidates
  if uniqueWords.length < wordsPerTheme then
    createErrorResult taskId theme
      ("Not enough unique candidates: " ++ toString uniqueWords.length ++
        " < " ++ toString wordsPerTheme)
  else
    match embed theme with
    | some (t0 :: trest) =>
        let themeEmbedding := t0 :: trest
        let wordResults := wordResultsOf embed themeEmbedding uniqueWords
        let sortedResults := wordResults.mergeSort simGE
        let selectedResults := sortedResults.take wordsPerTheme
        if selectedResults.length < wordsPerTheme then
          createErrorResult taskId theme
            ("Not enough valid words after embedding: " ++
              toString selectedResults.length ++ " < " ++
              toString wordsPerTheme)
        else
          { task_id := taskId, theme := theme, success := true,
            theme_embedding := some themeEmbedding,
            word_embeddings := selectedResults.map (fun r => r.2.1),
            similarities := selectedResults.map (fun r => r.2.2),
            selected_words := selectedResults.map (fun r => r.1),
            error_message := "" }
    | _ =>
        createErrorResult taskId theme
          ("Failed to generate embedding for theme: " ++ String.mk theme)

/--
Fixture for the worker claims: an oracle that embeds only the candidate
word `"a"`, leaving the theme without an embedding.
-/
def embedThemeFail : Word → Option (List ℝ) :=
  fun w => if w = ['a'] then some [1] else none

/--
Fixture for the worker claims: an oracle embedding both the theme `"t"`
and the candidate word `"a"`.
-/
def embedBoth : Word → Option (List ℝ) :=
  fun w => if w = ['t'] then some [1] else if w = ['a'] then some [1] else none

end WorkerModel

namespace AggregatorModel

open DedupModel WorkerModel

/-- The puzzle object built by `_create_puzzle_from_themes`. -/
structure PuzzleOut where
  words : List Word
  theme_similarity_scores : List ℝ
  themes : List Word
  all_candidates : List Word
  all_similarities : List ℝ

/-- One entry of the `puzzle_metadata` failure list. -/
structure FailedPuzzleInfo where
  puzzle_id : Nat
  themes : List Word
  error : String

/--
`ResultAggregator._create_puzzle_from_themes`: concatenates the selected
words and similarities of the group's results and validates the hardcoded
total of 16 words, raising (`Except.error`) otherwise.  The preliminary
best-effort reordering of `theme_results` by parsed theme index (wrapped
in `try/except: pass`) only permutes the group and is not modelled — no
verified property depends on within-puzzle order.
-/
def createPuzzleFromThemes (themeResults : List ThemeProcessingResult) :
    Except String PuzzleOut :=
  let allWords := (themeResults.map (·.selected_words)).flatten
  let themeSimilarities := (themeResults.map (·.similarities)).flatten
  let themes := themeResults.map (·.theme)
  if allWords.length ≠ 16 then
    .error ("Puzzle has " ++ toString allWords.length ++ " words, expected 16")
  else
    .ok { words := allWords, theme_similarity_scores := themeSimilarities,
          themes := themes, all_candidates := [],
          all_similarities := themeSimilarities }

/--
`ResultAggregator._create_puzzles_from_groups`: for each puzzle group,
either append `("puzzle_<id>", puzzle)` to the successful-puzzles output
or append a diagnostic entry to the `puzzle_metadata` failure list —
incomplete groups, groups with wrong per-theme word counts, and groups on
which `_create_puzzle_from_themes` raises (caught by the surrounding
`try/except`).
-/
def createPuzzlesFromGroups (themesPerPuzzle wordsPerTheme : Nat)
    (groups : List (Nat × List ThemeProcessingResult)) :
    List (String × PuzzleOut) × List FailedPuzzleInfo :=
  groups.foldl
    (fun acc pg =>
      let pid := pg.1
      let themeResults := pg.2
      if themeResults.length ≠ themesPerPuzzle then
        (acc.1, acc.2 ++
          [{ puzzle_id := pid, themes := themeResults.map (·.theme),
             error := "Incomplete puzzle: " ++ toString themeResults.length ++
               "/" ++ toString themesPerPuzzle ++ " themes" }])
      else if themeResults.any (fun r => r.selected_words.length ≠ wordsPerTheme)
      then
        (acc.1, acc.2 ++
          [{ puzzle_id := pid, themes := themeResults.map (·.theme),
             error := "Invalid word counts in themes" }])
      else
        match createPuzzleFromThemes themeResults with
        | .ok p => (acc.1 ++ [("puzzle_" ++ toString pid, p)], acc.2)
        | .error e =>
            (acc.1, acc.2 ++
              [{ puzzle_id := pid, themes := themeResults.map (·.theme),
                 error := "Error creating puzzle: " ++ e }]))
    ([], [])

/--
Fixture for the aggregation claims: a successful theme result with
exactly three selected words.
-/
def threeWordResult (taskId : String) : ThemeProcessingResult :=
  { task_id := taskId, theme := ['t'], success := true,
    theme_embedding := some [1], word_embeddings := [[1], [1], [1]],
    similarities := [0, 0, 0], selected_words := [['a'], ['b'], ['c']],
    error_message := "" }

end AggregatorModel

namespace CacheModel

open DedupModel

/-- `EmbeddingEntry` of `SharedEmbeddingCache.py` (dataclass). -/
structure EmbeddingEntry where
  word : Word
  embedding : List ℝ
  timestamp : ℝ
  theme : Option Word
  word_type : Option String
  similarity_to_theme : Option ℝ

instance : Nonempty EmbeddingEntry := ⟨⟨[], [], 0, none, none, none⟩⟩

/--
The Manager-backed `shared_cache` dict, as an association list in
insertion order (Python dicts preserve insertion order; an update keeps
the key's original position).
-/
abbrev Cache := List (Word × EmbeddingEntry)

/-- Dict lookup `shared_cache.get(cache_key)`. -/
def lookupEntry : Cache → Word → Option EmbeddingEntry
  | [], _ => none
  | (k', e') :: rest, k => if k' = k then some e' else lookupEntry rest k

/-- Dict assignment `shared_cache[cache_key] = entry`. -/
def putEntry : Cache → Word → EmbeddingEntry → Cache
  | [], k, e => [(k, e)]
  | (k', e') :: rest, k, e =>
      if k' = k then (k', e) :: rest else (k', e') :: putEntry rest k e

/--
`SharedEmbeddingCache.get`: look up by normalized key and return the
entry's embedding.  (`if entry_dict:` is always true for a stored entry
record, so presence alone decides; hit/miss statistics are not modelled.)
-/
def cacheGet (c : Cache) (word : Word) : Option (List ℝ) :=
  (lookupEntry c (normalizeKey word)).map (·.embedding)

/--
`SharedEmbeddingCache.put`: upsert an `EmbeddingEntry` under the
normalized key; `time.time()` is passed in as `now`.
-/
def cachePut (c : Cache) (word : Word) (embedding : List ℝ) (now : ℝ)
    (theme : Option Word) (wordType : Option String) (sim : Option ℝ) :
    Cache :=
  putEntry c (normalizeKey word)
    { word := word, embedding := embedding, timestamp := now, theme := theme,
      word_type := wordType, similarity_to_theme := sim }

/-- `SharedEmbeddingCache.clear`: `shared_cache.clear()`. -/
def clear (_ : Cache) : Cache := []

/-- One `put` call, for building caches by a sequence of puts. -/
structure PutCall where
  word : Word
  vec : List ℝ
  ts : ℝ
  theme : Option Word
  word_type : Option String
  sim : Option ℝ

/-- Apply a sequence of `put` calls to a cache. -/
def applyPuts (c : Cache) (ps : List PutCall) : Cache :=
  ps.foldl (fun acc p => cachePut acc p.word p.vec p.ts p.theme p.word_type p.sim) c

/--
One CSV cell as the loader sees it: a parseable float, an empty string,
or text that `float(...)` rejects.
-/
inductive CsvCell
  | num (x : ℝ)
  | blank
  | junk

/-- `float(value)`: raises (`none`) on an empty or unparseable string. -/
def parseFloatCell : CsvCell → Option ℝ
  | .num x => some x
  | _ => none

/--
`float(row['similarity_to_theme']) if row.get('similarity_to_theme') else
None`: an empty cell is `None`, an unparseable nonempty cell raises.
-/
def parseOptionalFloatCell : CsvCell → Option (Option ℝ)
  | .num x => some (some x)
  | .blank => some none
  | .junk => none

/--
The loop of `_load_from_csv` that collects the `embedding_dim_` cells of
one row (`embedding.append(float(value))`): each cell goes through
`float(...)`, and a single unparseable cell aborts the whole row.
-/
def parseEmbeddingCells : List CsvCell → Option (List ℝ)
  | [] => some []
  | cell :: rest =>
      match parseFloatCell cell, parseEmbeddingCells rest with
      | some x, some xs => some (x :: xs)
      | _, _ => none

/--
One CSV data row of the cache snapshot, already split into the fields the
loader reads: `word` (`none` models a missing/null word cell), the
optional string-valued `theme` / `word_type` columns (empty string and
missing collapse to `none`), and the float-valued cells.  The
`timestamp`-column-missing case (which would default to load time) does
not arise for files written by `backup_to_csv` and is not modelled.
-/
structure CsvRow where
  word : Option Word
  theme : Option Word
  word_type : Option String
  similarity_to_theme : CsvCell
  timestamp : CsvCell
  embedding : List CsvCell

/--
The per-row body of `_load_from_csv`'s `try/except` block: build an
`EmbeddingEntry` from a row, failing (row skipped) when the word is
missing, when any `embedding_dim_` cell fails to parse, when the row has
no embedding columns at all (`if not embedding: continue`), or when the
timestamp or similarity cell raises in `float(...)`.
-/
def loadRow (r : CsvRow) : Option EmbeddingEntry :=
  match r.word with
  | none => none
  | some word =>
      match parseEmbeddingCells r.embedding with
      | none => none
      | some [] => none
      | some (e0 :: es) =>
          match parseFloatCell r.timestamp,
              parseOptionalFloatCell r.similarity_to_theme with
          | some ts, some sim =>
              some { word := word, embedding := e0 :: es, timestamp := ts,
                     theme := r.theme, word_type := r.word_type,
                     similarity_to_theme := sim }
          | _, _ => none

/--
`SharedEmbeddingCache._load_from_csv`: a missing file leaves the cache as
it started (empty at init); otherwise each row is parsed independently,
malformed rows are skipped with a warning, and each loaded entry is
stored under its normalized key.
-/
def loadFromCsv (file : Option (List CsvRow)) (c : Cache) : Cache :=
  match file with
  | none => c
  | some rows =>
      rows.foldl
        (fun acc r =>
          match loadRow r with
          | none => acc
          | some e => putEntry acc (normalizeKey e.word) e)
        c

/--
`entry_dict.get('similarity_to_theme') or ''` as written by
`backup_to_csv`: `None` and the falsy `0.0` both serialize to the empty
string.
-/
noncomputable def simCellOfEntry : Option ℝ → CsvCell
  | none => .blank
  | some x => if x = 0 then .blank else .num x

/--
The CSV row `backup_to_csv` writes for one entry, given the embedding
dimension `dim` taken from the file's header (derived from the first
entry): `csv.DictWriter` fills columns missing from a short row with its
default `restval`, the empty string.
-/
noncomputable def rowOfEntry (dim : Nat) (e : EmbeddingEntry) : CsvRow :=
  { word := some e.word, theme := e.theme, word_type := e.word_type,
    similarity_to_theme := simCellOfEntry e.similarity_to_theme,
    timestamp := .num e.timestamp,
    embedding := e.embedding.map .num ++
      List.replicate (dim - e.embedding.length) .blank }

/--
`SharedEmbeddingCache.backup_to_csv`: an empty cache skips the backup
entirely (`if len(self.shared_cache) == 0: return`), leaving the on-disk
snapshot unchanged; otherwise the snapshot is written to a temp file and
atomically renamed over the old one.  The header's embedding columns come
from the first entry; an entry with more dimensions than the header makes
`csv.DictWriter.writerow` raise, which the surrounding `except` turns
into "no new snapshot" (temp file deleted, previous snapshot intact).
-/
noncomputable def backupToCsv (c : Cache) (disk : Option (List CsvRow)) :
    Option (List CsvRow) :=
  match c with
  | [] => disk
  | (k0, e0) :: rest =>
      let dim := e0.embedding.length
      if ((k0, e0) :: rest).any (fun ke => dim < ke.2.embedding.length) then
        disk
      else some (((k0, e0) :: rest).map (fun ke => rowOfEntry dim ke.2))

/--
Well-formedness of a cache reachable through `put` calls: every entry
sits under the normalized key of its own word, keys are distinct, and all
embeddings share the run's fixed dimension `d`.
-/
def CacheWF (d : Nat) (c : Cache) : Prop :=
  (∀ ke ∈ c, ke.1 = normalizeKey ke.2.word ∧ ke.2.embedding.length = d) ∧
    (c.map Prod.fst).Nodup

end CacheModel

namespace RetryModel

/--
Outcome of one `client.models.embed_content` attempt inside
`GeminiEmbeddingProvider.generate_embeddings`:

* `ok embs` — a well-shaped response; each element is one requested
  text's embedding slot (`None` for an invalid embedding object);
* `networkError` — `ConnectionError` / `TimeoutError` / `OSError`;
* `apiError` — any other exception (auth, quota, malformed response, …).
-/
inductive ApiOutcome
  | ok (embs : List (Option (List ℝ)))
  | networkError
  | apiError

/--
How the retry loop ends: `completed embs` when an attempt succeeded (or,
for `max_retries = 0`, when the loop body never ran and
`batch_embeddings` stayed empty), `fatal` for the `sys.exit(1)` paths.
-/
inductive RetryOutcome
  | completed (embs : List (Option (List ℝ)))
  | fatal

/--
Observable behaviour of one run of the retry loop: its outcome, the
sleep delays it performed (in order), and how many attempts it made.
-/
structure RetryTrace where
  outcome : RetryOutcome
  delays : List ℝ
  attemptsMade : Nat

/--
The `for attempt in range(self.max_retries)` loop of
`generate_embeddings`, with the attempt outcomes supplied by `oracle`:
a success breaks out of the loop; a non-network exception exits fatally
at once; a network error on the last attempt
(`attempt == max_retries - 1`) exits fatally, and otherwise sleeps
`retry_base_delay * 2 ** attempt` and retries.
-/
noncomputable def retryLoop (baseDelay : ℝ) (oracle : Nat → ApiOutcome) :
    Nat → Nat → List ℝ → RetryTrace
  | 0, i, ds => ⟨.completed [], ds, i⟩
  | n + 1, i, ds =>
      match oracle i with
      | .ok embs => ⟨.completed embs, ds, i + 1⟩
      | .apiError => ⟨.fatal, ds, i + 1⟩
      | .networkError =>
          if n = 0 then ⟨.fatal, ds, i + 1⟩
          else retryLoop baseDelay oracle n (i + 1) (ds ++ [baseDelay * 2 ^ i])

/-- The whole retry loop, started at attempt 0 with no sleeps recorded. -/
noncomputable def generateEmbeddingsRetry (maxRetries : Nat) (baseDelay : ℝ)
    (oracle : Nat → ApiOutcome) : RetryTrace :=
  retryLoop baseDelay oracle maxRetries 0 []

end RetryModel

/-! ## Theorems -/

section RateLimiterTheorems

open RateLimiterModel

theorem concStep_le {maxConc : Int} {s : SlotStep} {a b : Int}
    (hs : ConcStep maxConc s a b) (hne : s ≠ SlotStep.timeoutAcquire)
    (hm : 0 ≤ maxConc) (ha : a ≤ maxConc) : b ≤ maxConc := by
  cases hs with
  | acquire a h => omega
  | timeoutAcquire a => exact absurd rfl hne
  | release a => omega

theorem concStep_nonneg {maxConc : Int} {s : SlotStep} {a b : Int}
    (hs : ConcStep maxConc s a b) (ha : 0 ≤ a) : 0 ≤ b := by
  cases hs with
  | acquire a h => omega
  | timeoutAcquire a => omega
  | release a => omega

theorem simpleConcStep_le {maxConc : Int} {s : SimpleSlotStep} {a b : Int}
    (hs : SimpleConcStep maxConc s a b) (ha : a ≤ maxConc) : b ≤ maxConc := by
  cases hs with
  | acquire a h => omega
  | release a => omega

theorem concTrace_bounded {maxConc : Int} {a : Int} {tr : List SlotStep}
    {b : Int} (htr : ConcTrace maxConc a tr b)
    (hno : SlotStep.timeoutAcquire ∉ tr) (hm : 0 ≤ maxConc)
    (ha : a ≤ maxConc) : b ≤ maxConc := by
  induction htr with
  | nil a => exact ha
  | cons hs _ ih =>
      refine ih (fun hmem => hno (List.mem_cons_of_mem _ hmem)) ?_
      exact concStep_le hs (fun he => hno (he ▸ List.mem_cons_self _ _)) hm ha

theorem simpleConcTrace_bounded {maxConc : Int} {a : Int}
    {tr : List SimpleSlotStep} {b : Int}
    (htr : SimpleConcTrace maxConc a tr b) (ha : a ≤ maxConc) :
    b ≤ maxConc := by
  induction htr with
  | nil a => exact ha
  | cons hs _ ih => exact ih (simpleConcStep_le hs ha)

/--
C1, counterexample: the claim "the shared `active_requests` count never
exceeds `max_concurrent_requests`" fails on `SharedRateLimiter` /
`WorkerRateLimiter` as soon as an acquisition takes the 60-second
spin-wait timeout path: with `max_concurrent_requests = 1`, one worker
acquires the single slot and holds it while a second worker spins for
over 60 seconds and then increments anyway, leaving
`active_requests = 2 > 1`.
-/
theorem c1_concurrency_bound_counterexample :
    ConcTrace 1 0 [SlotStep.acquire, SlotStep.timeoutAcquire] 2 ∧
      (1 : Int) < 2 := by
  constructor
  · have s1 : ConcStep 1 SlotStep.acquire 0 1 := by
      simpa using @ConcStep.acquire 1 0 (by norm_num)
    have s2 : ConcStep 1 SlotStep.timeoutAcquire 1 2 := by
      simpa using @ConcStep.timeoutAcquire 1 1
    exact ConcTrace.cons s1 (ConcTrace.cons s2 (ConcTrace.nil 2))
  · norm_num

/--
C1, amended: for every interleaving of `acquire_request_slot` calls and
their paired releases in which no acquisition takes the 60-second
concurrency-gate timeout path, the shared `active_requests` count never
exceeds `max_concurrent_requests` (assuming a nonnegative configured
limit); and for `SimpleSharedRateLimiter`, whose gate has no timeout
bypass at all, the bound holds in every interleaving unconditionally.
-/
theorem c1_concurrency_bound_amended :
    (∀ (maxConc a b : Int) (tr : List SlotStep),
        SlotStep.timeoutAcquire ∉ tr → 0 ≤ maxConc → a ≤ maxConc →
        ConcTrace maxConc a tr b → b ≤ maxConc) ∧
      (∀ (maxConc a b : Int) (tr : List SimpleSlotStep),
        a ≤ maxConc → SimpleConcTrace maxConc a tr b → b ≤ maxConc) :=
  ⟨fun _ _ _ _ hno hm ha htr => concTrace_bounded htr hno hm ha,
    fun _ _ _ _ ha htr => simpleConcTrace_bounded htr ha⟩

/--
C1, witness: a concrete timeout-free acquire/release interleaving at
`max_concurrent_requests = 2`, bounded by 2 in both rate limiter
variants.
-/
theorem c1_concurrency_bound_witness :
    ConcTrace 2 0 [SlotStep.acquire, SlotStep.release] 0 ∧
      SimpleConcTrace 2 0 [SimpleSlotStep.acquire, SimpleSlotStep.release] 0 ∧
      (0 : Int) ≤ 2 ∧ (0 : Int) ≤ 2 := by
  have s1 : ConcStep 2 SlotStep.acquire 0 1 := by
    simpa using @ConcStep.acquire 2 0 (by norm_num)
  have s2 : ConcStep 2 SlotStep.release 1 0 := by
    simpa using @ConcStep.release 2 1
  have htr : ConcTrace 2 0 [SlotStep.acquire, SlotStep.release] 0 :=
    ConcTrace.cons s1 (ConcTrace.cons s2 (ConcTrace.nil 0))
  have t1 : SimpleConcStep 2 SimpleSlotStep.acquire 0 1 := by
    simpa using @SimpleConcStep.acquire 2 0 (by norm_num)
  have t2 : SimpleConcStep 2 SimpleSlotStep.release 1 0 := by
    simpa using @SimpleConcStep.release 2 1
  have htr' : SimpleConcTrace 2 0 [SimpleSlotStep.acquire, SimpleSlotStep.release] 0 :=
    SimpleConcTrace.cons t1 (SimpleConcTrace.cons t2 (SimpleConcTrace.nil 0))
  exact ⟨htr, htr',
    c1_concurrency_bound_amended.1 2 0 0 _ (by decide) (by norm_num)
      (by norm_num) htr,
    c1_concurrency_bound_amended.2 2 0 0 _ (by norm_num) htr'⟩

/--
C9: the shared `active_requests` counter of `SharedRateLimiter` /
`WorkerRateLimiter` is never negative: across every interleaving of
acquisitions (guarded, or via the timeout path) and releases — the
release being the `finally` block's
`active_requests = max(0, active_requests - 1)`, which runs even when the
protected call raises — the counter stays ≥ 0 from a nonnegative start.
-/
theorem c9_active_requests_nonneg (maxConc a b : Int) (tr : List SlotStep)
    (ha : 0 ≤ a) (htr : ConcTrace maxConc a tr b) : 0 ≤ b := by
  induction htr with
  | nil a => exact ha
  | cons hs _ ih => exact ih (concStep_nonneg hs ha)

/--
C9, witness: a concrete interleaving — acquire, release, release (a
spurious second release, as after a missed pairing) — still leaves the
counter at 0, not negative.
-/
theorem c9_active_requests_nonneg_witness :
    ConcTrace 3 0 [SlotStep.acquire, SlotStep.release, SlotStep.release] 0 ∧
      (0 : Int) ≤ 0 := by
  have s1 : ConcStep 3 SlotStep.acquire 0 1 := by
    simpa using @ConcStep.acquire 3 0 (by norm_num)
  have s2 : ConcStep 3 SlotStep.release 1 0 := by
    simpa using @ConcStep.release 3 1
  have s3 : ConcStep 3 SlotStep.release 0 0 := by
    simpa using @ConcStep.release 3 0
  have htr :
      ConcTrace 3 0 [SlotStep.acquire, SlotStep.release, SlotStep.release] 0 :=
    ConcTrace.cons s1 (ConcTrace.cons s2 (ConcTrace.cons s3 (ConcTrace.nil 0)))
  exact ⟨htr, c9_active_requests_nonneg 3 0 0 _ (by norm_num) htr⟩

end RateLimiterTheorems

section CosineTheorems

open CosineModel

theorem dotList_self_nonneg (a : List ℝ) : 0 ≤ dotList a a := by
  induction a with
  | nil => simp [dotList]
  | cons x xs ih =>
      simp only [dotList, List.zipWith_cons_cons, List.sum_cons] at *
      nlinarith [sq_nonneg x]

theorem cauchySchwarzStep (x y A B D : ℝ) (hA : 0 ≤ A) (hB : 0 ≤ B)
    (hd : D ^ 2 ≤ A * B) : (x * y + D) ^ 2 ≤ (x * x + A) * (y * y + B) := by
  rcases eq_or_lt_of_le hB with hB0 | hBpos
  · have hD2 : D ^ 2 ≤ 0 := by rw [← hB0] at hd; simpa using hd
    have hD : D = 0 := by nlinarith [sq_nonneg D]
    subst hD
    nlinarith [mul_nonneg hA (sq_nonneg y), mul_nonneg hA hB]
  · nlinarith [sq_nonneg (x * B - y * D), mul_nonneg (sub_nonneg.2 hd) (sq_nonneg y),
      mul_nonneg (le_of_lt hBpos) (sub_nonneg.2 hd), hBpos]

theorem dotList_sq_le (a b : List ℝ) :
    (dotList a b) ^ 2 ≤ dotList a a * dotList b b := by
  induction a generalizing b with
  | nil => simp [dotList]
  | cons x xs ih =>
      cases b with
      | nil => simp [dotList]
      | cons y ys =>
          have hA := dotList_self_nonneg xs
          have hB := dotList_self_nonneg ys
          have hd := ih ys
          simp only [dotList, List.zipWith_cons_cons, List.sum_cons] at *
          exact cauchySchwarzStep x y _ _ _ hA hB hd

theorem abs_dotList_le (a b : List ℝ) :
    |dotList a b| ≤ normList a * normList b := by
  have h1 : |dotList a b| = Real.sqrt ((dotList a b) ^ 2) :=
    (Real.sqrt_sq_eq_abs _).symm
  rw [h1, normList, normList, ← Real.sqrt_mul (dotList_self_nonneg a)]
  exact Real.sqrt_le_sqrt (dotList_sq_le a b)

/--
C5: the worker's cosine similarity equals
`dot(a,b) / (‖a‖ * ‖b‖)` whenever both norms are nonzero; it returns
`0.0` (rather than raising) when either vector has zero norm; and the
returned value always lies in `[-1, 1]`.  (The code contains no explicit
clamp; in the exact-real semantics the bound follows from the
Cauchy–Schwarz inequality.)
-/
theorem c5_cosine_similarity (a b : List ℝ) (hlen : a.length = b.length) :
    (-1 ≤ cosineSimilarity a b ∧ cosineSimilarity a b ≤ 1) ∧
      (normList a = 0 ∨ normList b = 0 → cosineSimilarity a b = 0) ∧
      (normList a ≠ 0 → normList b ≠ 0 →
        cosineSimilarity a b =
          dotList a b / (normList a * normList b)) := by
  have hlen' : ¬a.length ≠ b.length := not_not_intro hlen
  refine ⟨?_, ?_, ?_⟩
  · by_cases hz : normList a = 0 ∨ normList b = 0
    · rw [cosineSimilarity, if_neg hlen', if_pos hz]
      norm_num
    · rw [cosineSimilarity, if_neg hlen', if_neg hz]
      push_neg at hz
      have hapos : 0 < normList a :=
        lt_of_le_of_ne (Real.sqrt_nonneg _) (Ne.symm hz.1)
      have hbpos : 0 < normList b :=
        lt_of_le_of_ne (Real.sqrt_nonneg _) (Ne.symm hz.2)
      have habpos : 0 < normList a * normList b := mul_pos hapos hbpos
      have habs : |dotList a b / (normList a * normList b)| ≤ 1 := by
        rw [abs_div, abs_of_pos habpos]
        exact (div_le_one habpos).2 (abs_dotList_le a b)
      exact abs_le.mp habs
  · intro hz
    rw [cosineSimilarity, if_neg hlen', if_pos hz]
  · intro hna hnb
    rw [cosineSimilarity, if_neg hlen', if_neg (by tauto)]

/--
C5, witness: instantiated at `a = b = [1]`, where the norms are 1 and the
similarity is `1/(1*1)`.
-/
theorem c5_cosine_similarity_witness :
    ([(1 : ℝ)].length = [(1 : ℝ)].length) ∧
      ((-1 ≤ cosineSimilarity [(1 : ℝ)] [(1 : ℝ)] ∧
          cosineSimilarity [(1 : ℝ)] [(1 : ℝ)] ≤ 1) ∧
        (normList [(1 : ℝ)] = 0 ∨ normList [(1 : ℝ)] = 0 →
          cosineSimilarity [(1 : ℝ)] [(1 : ℝ)] = 0) ∧
        (normList [(1 : ℝ)] ≠ 0 → normList [(1 : ℝ)] ≠ 0 →
          cosineSimilarity [(1 : ℝ)] [(1 : ℝ)] =
            dotList [(1 : ℝ)] [(1 : ℝ)] /
              (normList [(1 : ℝ)] * normList [(1 : ℝ)]))) :=
  ⟨rfl, c5_cosine_similarity [(1 : ℝ)] [(1 : ℝ)] rfl⟩

end CosineTheorems

section DedupTheorems

open DedupModel

theorem endsWithS_iff (x y : DedupModel.Word) :
    (x.getLast? = some 's' ∧ 1 < x.length ∧ x.dropLast = y) ↔
      (y ≠ [] ∧ x = y ++ ['s']) := by
  constructor
  · rintro ⟨hlast, hlen, hdrop⟩
    rcases List.eq_nil_or_concat x with rfl | ⟨ys, c, rfl⟩
    · simp at hlast
    · simp only [List.concat_eq_append] at hlast hlen hdrop ⊢
      rw [List.getLast?_concat] at hlast
      obtain rfl : c = 's' := Option.some.inj hlast
      rw [List.dropLast_concat] at hdrop
      subst hdrop
      refine ⟨?_, rfl⟩
      have hpos : 0 < ys.length := by
        have := hlen
        simp only [List.length_append, List.length_cons, List.length_nil] at this
        omega
      exact List.ne_nil_of_length_pos hpos
  · rintro ⟨hy, rfl⟩
    refine ⟨List.getLast?_concat _, ?_, List.dropLast_concat⟩
    have : 0 < y.length := List.length_pos.2 hy
    simp only [List.length_append, List.length_cons, List.length_nil]
    omega

theorem isDuplicateWord_map_iff (w : DedupModel.Word) (u : List DedupModel.Word) :
    isDuplicateWord w (u.map normalizeKey) ↔
      ∃ k ∈ u, matchesKeptRule w k := by
  unfold isDuplicateWord matchesKeptRule
  constructor
  · rintro (h | ⟨h1, h2, h3⟩ | h)
    · obtain ⟨k, hk, he⟩ := List.mem_map.1 h
      exact ⟨k, hk, Or.inl he.symm⟩
    · obtain ⟨k, hk, he⟩ := List.mem_map.1 h3
      have hm := (endsWithS_iff (normalizeKey w) (normalizeKey k)).1
        ⟨h1, h2, he.symm⟩
      exact ⟨k, hk, Or.inr (Or.inl hm)⟩
    · obtain ⟨k, hk, he⟩ := List.mem_map.1 h
      exact ⟨k, hk, Or.inr (Or.inr he)⟩
  · rintro ⟨k, hk, (h | h | h)⟩
    · exact Or.inl (List.mem_map.2 ⟨k, hk, h.symm⟩)
    · obtain ⟨hlast, hlen, hdrop⟩ :=
        (endsWithS_iff (normalizeKey w) (normalizeKey k)).2 h
      exact Or.inr (Or.inl ⟨hlast, hlen, List.mem_map.2 ⟨k, hk, hdrop.symm⟩⟩)
    · exact Or.inr (Or.inr (List.mem_map.2 ⟨k, hk, h⟩))

theorem dedup_state_inv (cs : List DedupModel.Word) :
    ∀ p u : List DedupModel.Word, p = u.map normalizeKey →
      (List.foldl dedupStep (p, u) cs).1 =
        (List.foldl dedupStep (p, u) cs).2.map normalizeKey := by
  induction cs with
  | nil => intro p u hp; simpa using hp
  | cons c cs ih =>
      intro p u hp
      simp only [List.foldl_cons]
      by_cases h : isDuplicateWord c (p, u).1
      · rw [dedupStep, if_pos h]
        exact ih p u hp
      · rw [dedupStep, if_neg h]
        exact ih _ _ (by simp [hp])

/--
C8, counterexample: the general dropping rule fails as stated — in the
candidate sequence `["", "s"]` the later candidate `"s"` differs from the
kept word `""` only by a trailing `"s"`, yet the dedup loop keeps both
(the plural check requires `len(word_lower) > 1`, so the one-letter word
`"s"` is never treated as a plural).
-/
theorem c8_dedup_counterexample :
    dedupCandidates [[], ['s']] = [[], ['s']] ∧
      (['s'] : DedupModel.Word) = [] ++ ['s'] :=
  ⟨by decide, rfl⟩

/--
C8, amended: deduplicating `["Cat", "cat", "cats", "dog"]` keeps exactly
`["Cat", "dog"]`; in general the first-seen word wins, and a later
candidate is dropped exactly when some already-kept word matches it under
the rule: equal normalized (lowercased, trimmed) forms, or the
candidate's normalized form is the kept word's plus a trailing `'s'`
(only when the kept word's normalized form is nonempty — the code's
`len(word_lower) > 1` guard), or the kept word's normalized form is the
candidate's plus a trailing `'s'`.
-/
theorem c8_dedup_amended :
    dedupCandidates
        [['C', 'a', 't'], ['c', 'a', 't'], ['c', 'a', 't', 's'],
          ['d', 'o', 'g']] = [['C', 'a', 't'], ['d', 'o', 'g']] ∧
      ∀ (cs : List DedupModel.Word) (w : DedupModel.Word),
        ((∃ k ∈ dedupCandidates cs, matchesKeptRule w k) →
          dedupCandidates (cs ++ [w]) = dedupCandidates cs) ∧
        ((¬∃ k ∈ dedupCandidates cs, matchesKeptRule w k) →
          dedupCandidates (cs ++ [w]) = dedupCandidates cs ++ [w]) := by
  constructor
  · decide
  · intro cs w
    have hsnoc : dedupCandidates (cs ++ [w]) =
        (dedupStep (List.foldl dedupStep ([], []) cs) w).2 := by
      unfold dedupCandidates
      rw [List.foldl_append]
      rfl
    have hst : (List.foldl dedupStep ([], []) cs).1 =
        (dedupCandidates cs).map normalizeKey :=
      dedup_state_inv cs [] [] (by simp)
    have hdup : isDuplicateWord w (List.foldl dedupStep ([], []) cs).1 ↔
        ∃ k ∈ dedupCandidates cs, matchesKeptRule w k := by
      rw [hst]; exact isDuplicateWord_map_iff w _
    constructor
    · intro hex
      rw [hsnoc, dedupStep, if_pos (hdup.2 hex)]
      rfl
    · intro hnex
      rw [hsnoc, dedupStep, if_neg (fun h => hnex (hdup.1 h))]
      rfl

/--
C8, witness: with `"cat"` already kept, the later candidate `"cats"`
matches the dropping rule and is indeed dropped.
-/
theorem c8_dedup_amended_witness :
    ((∃ k ∈ dedupCandidates [['c', 'a', 't']],
        matchesKeptRule ['c', 'a', 't', 's'] k) ∧
      dedupCandidates ([['c', 'a', 't']] ++ [['c', 'a', 't', 's']]) =
        dedupCandidates [['c', 'a', 't']]) ∧
      (¬(∃ k ∈ dedupCandidates [['c', 'a', 't']],
          matchesKeptRule ['d', 'o', 'g'] k)) ∧
      dedupCandidates ([['c', 'a', 't']] ++ [['d', 'o', 'g']]) =
        dedupCandidates [['c', 'a', 't']] ++ [['d', 'o', 'g']] := by
  have hex : ∃ k ∈ dedupCandidates [['c', 'a', 't']],
      matchesKeptRule ['c', 'a', 't', 's'] k := by decide
  have hnex : ¬∃ k ∈ dedupCandidates [['c', 'a', 't']],
      matchesKeptRule ['d', 'o', 'g'] k := by decide
  exact ⟨⟨hex, (c8_dedup_amended.2 [['c', 'a', 't']] ['c', 'a', 't', 's']).1 hex⟩,
    hnex, (c8_dedup_amended.2 [['c', 'a', 't']] ['d', 'o', 'g']).2 hnex⟩

end DedupTheorems


section WorkerTheorems

open DedupModel WorkerModel

theorem str_append_ne_empty (s t : String) (hs : s ≠ "") : s ++ t ≠ "" := by
  intro h
  apply hs
  have hd := congrArg String.data h
  rw [String.data_append] at hd
  have h2 : s.data = [] := (List.append_eq_nil.mp hd).1
  cases s with
  | mk data =>
      simp only at h2
      rw [h2]

theorem length_wordResultsOf (embed : DedupModel.Word → Option (List ℝ))
    (te : List ℝ) (ws : List DedupModel.Word) :
    (wordResultsOf embed te ws).length = validEmbeddingCount embed ws := by
  induction ws with
  | nil => rfl
  | cons w ws ih =>
      cases hw : embed w with
      | none =>
          simp [wordResultsOf, validEmbeddingCount, isValidEmb, hw,
            List.filterMap_cons, List.filter_cons] at *
          exact ih
      | some l =>
          cases l with
          | nil =>
              simp [wordResultsOf, validEmbeddingCount, isValidEmb, hw,
                List.filterMap_cons, List.filter_cons] at *
              exact ih
          | cons e0 es =>
              simp [wordResultsOf, validEmbeddingCount, isValidEmb, hw,
                List.filterMap_cons, List.filter_cons] at *
              exact ih

theorem simGE_trans (a b c : DedupModel.Word × List ℝ × ℝ)
    (h1 : simGE a b = true) (h2 : simGE b c = true) : simGE a c = true := by
  simp only [simGE, decide_eq_true_eq] at *
  exact le_trans h2 h1

theorem simGE_total (a b : DedupModel.Word × List ℝ × ℝ) :
    (simGE a b || simGE b a) = true := by
  simp only [simGE, Bool.or_eq_true, decide_eq_true_eq]
  exact le_total b.2.2 a.2.2

theorem similarities_sorted_desc (wr : List (DedupModel.Word × List ℝ × ℝ))
    (k : Nat) :
    (((wr.mergeSort simGE).take k).map (fun r => r.2.2)).Pairwise
      (fun x y : ℝ => y ≤ x) := by
  have hsorted : (wr.mergeSort simGE).Pairwise (fun a b => simGE a b = true) :=
    List.sorted_mergeSort simGE_trans simGE_total wr
  have hsorted' : (wr.mergeSort simGE).Pairwise
      (fun a b : DedupModel.Word × List ℝ × ℝ => b.2.2 ≤ a.2.2) :=
    hsorted.imp (by simp only [simGE, decide_eq_true_eq]; exact id)
  have htake := hsorted'.sublist (List.take_sublist k _)
  exact htake.map _ (fun a b h => h)

/--
C2, counterexample: the claim "at least `words_per_theme` candidates with
valid embeddings imply `success == true`" fails when the theme itself
gets no embedding: with `words_per_theme = 1`, an oracle that embeds the
single candidate `"a"` but not the theme `"t"` gives one valid candidate
embedding, yet `process_task` returns a failed result (the
`if not theme_embedding` branch).
-/
theorem c2_worker_counterexample :
    validEmbeddingCount embedThemeFail (dedupCandidates [['a']]) = 1 ∧
      isValidEmb (embedThemeFail ['t']) = false ∧
      (process_task 1 embedThemeFail "t1" ['t'] [['a']]).success = false := by
  refine ⟨by decide, by decide, ?_⟩
  have h1 : dedupCandidates [['a']] = [['a']] := by decide
  have h2 : embedThemeFail ['t'] = none := by decide
  simp [process_task, h1, h2, createErrorResult]

/--
C2, amended: for every processed task, if fewer than `words_per_theme` of
the deduplicated candidates receive valid embeddings the result has
`success == false` and a non-empty `error_message`; and if the theme
itself receives a valid embedding and at least `words_per_theme`
deduplicated candidates receive valid embeddings, the result has
`success == true`, `selected_words`, `similarities` and `word_embeddings`
all of length exactly `words_per_theme`, and `similarities` sorted in
descending order.
-/
theorem c2_worker_task (wordsPerTheme : Nat)
    (embed : DedupModel.Word → Option (List ℝ)) (taskId : String)
    (theme : DedupModel.Word) (candidates : List DedupModel.Word) :
    (validEmbeddingCount embed (dedupCandidates candidates) < wordsPerTheme →
      (process_task wordsPerTheme embed taskId theme candidates).success =
          false ∧
        (process_task wordsPerTheme embed taskId theme
            candidates).error_message ≠ "") ∧
      (isValidEmb (embed theme) = true →
        wordsPerTheme ≤
          validEmbeddingCount embed (dedupCandidates candidates) →
        (process_task wordsPerTheme embed taskId theme candidates).success =
            true ∧
          (process_task wordsPerTheme embed taskId theme
              candidates).selected_words.length = wordsPerTheme ∧
          (process_task wordsPerTheme embed taskId theme
              candidates).similarities.length = wordsPerTheme ∧
          (process_task wordsPerTheme embed taskId theme
              candidates).word_embeddings.length = wordsPerTheme ∧
          (process_task wordsPerTheme embed taskId theme
              candidates).similarities.Pairwise (fun x y : ℝ => y ≤ x)) := by
  constructor
  · intro hlt
    by_cases hu : (dedupCandidates candidates).length < wordsPerTheme
    · constructor
      · simp [process_task, hu, createErrorResult]
      · simp [process_task, hu, createErrorResult]
        exact str_append_ne_empty _ _
          (str_append_ne_empty _ _ (str_append_ne_empty _ _ (by decide)))
    · cases hemb : embed theme with
      | none =>
          constructor
          · simp [process_task, hu, hemb, createErrorResult]
          · simp [process_task, hu, hemb, createErrorResult]
            exact str_append_ne_empty _ _ (by decide)
      | some l =>
          cases l with
          | nil =>
              constructor
              · simp [process_task, hu, hemb, createErrorResult]
              · simp [process_task, hu, hemb, createErrorResult]
                exact str_append_ne_empty _ _ (by decide)
          | cons t0 ts =>
              have hlenwr := length_wordResultsOf embed (t0 :: ts)
                (dedupCandidates candidates)
              have hwr : (wordResultsOf embed (t0 :: ts)
                  (dedupCandidates candidates)).length < wordsPerTheme := by
                omega
              constructor
              · simp [process_task, hu, hemb, hwr, createErrorResult]
              · simp [process_task, hu, hemb, hwr, createErrorResult]
                exact str_append_ne_empty _ _
                  (str_append_ne_empty _ _
                    (str_append_ne_empty _ _ (by decide)))
  · intro htv hge
    cases hemb : embed theme with
    | none => rw [hemb] at htv; simp [isValidEmb] at htv
    | some l =>
        cases l with
        | nil => rw [hemb] at htv; simp [isValidEmb] at htv
        | cons t0 ts =>
            have hcount :
                validEmbeddingCount embed (dedupCandidates candidates) ≤
                  (dedupCandidates candidates).length :=
              List.length_filter_le _ _
            have hu : ¬(dedupCandidates candidates).length < wordsPerTheme := by
              omega
            have hlenwr := length_wordResultsOf embed (t0 :: ts)
              (dedupCandidates candidates)
            have hwr : ¬(wordResultsOf embed (t0 :: ts)
                (dedupCandidates candidates)).length < wordsPerTheme := by
              omega
            refine ⟨?_, ?_, ?_, ?_, ?_⟩
            · simp [process_task, hu, hemb, hwr]
            · simp [process_task, hu, hemb, hwr]
              omega
            · simp [process_task, hu, hemb, hwr]
              omega
            · simp [process_task, hu, hemb, hwr]
              omega
            · have hsorted := similarities_sorted_desc
                (wordResultsOf embed (t0 :: ts) (dedupCandidates candidates))
                wordsPerTheme
              simp [process_task, hu, hemb, hwr]
              simpa using hsorted

/--
C2, witness: with `words_per_theme = 1` and an oracle embedding both the
theme `"t"` and the candidate `"a"`, the task succeeds with exactly one
selected word; with `words_per_theme = 2` and only one valid candidate
embedding, it fails with a non-empty error message.
-/
theorem c2_worker_task_witness :
    isValidEmb (embedBoth ['t']) = true ∧
      1 ≤ validEmbeddingCount embedBoth (dedupCandidates [['a']]) ∧
      ((process_task 1 embedBoth "t1" ['t'] [['a']]).success = true ∧
        (process_task 1 embedBoth "t1" ['t'] [['a']]).selected_words.length =
          1 ∧
        (process_task 1 embedBoth "t1" ['t'] [['a']]).similarities.length = 1 ∧
        (process_task 1 embedBoth "t1" ['t'] [['a']]).word_embeddings.length =
          1 ∧
        (process_task 1 embedBoth "t1" ['t'] [['a']]).similarities.Pairwise
          (fun x y : ℝ => y ≤ x)) ∧
      validEmbeddingCount embedBoth (dedupCandidates [['a']]) < 2 ∧
      ((process_task 2 embedBoth "t2" ['t'] [['a']]).success = false ∧
        (process_task 2 embedBoth "t2" ['t'] [['a']]).error_message ≠ "") :=
  ⟨by decide, by decide,
    (c2_worker_task 1 embedBoth "t1" ['t'] [['a']]).2 (by decide) (by decide),
    by decide,
    (c2_worker_task 2 embedBoth "t2" ['t'] [['a']]).1 (by decide)⟩

end WorkerTheorems

section AggregatorTheorems

open DedupModel WorkerModel AggregatorModel

/--
C3, code bug: `_create_puzzle_from_themes` validates against a hardcoded
total of 16 words instead of `themes_per_puzzle * words_per_theme`.  With
`themes_per_puzzle = 2` and `words_per_theme = 3`, a group of exactly 2
successful results with exactly 3 selected words each — complete and
valid by the aggregator's own configured checks — is routed to the
failed-puzzles list with "Error creating puzzle: Puzzle has 6 words,
expected 16" and never reaches the successful-puzzles output.
-/
theorem c3_aggregation_hardcoded_16_bug :
    (threeWordResult "p01_t0_a").success = true ∧
      (threeWordResult "p01_t0_a").selected_words.length = 3 ∧
      (threeWordResult "p01_t1_b").success = true ∧
      (threeWordResult "p01_t1_b").selected_words.length = 3 ∧
      (createPuzzlesFromGroups 2 3
          [(1, [threeWordResult "p01_t0_a", threeWordResult "p01_t1_b"])]).1 =
        [] ∧
      ((createPuzzlesFromGroups 2 3
            [(1, [threeWordResult "p01_t0_a",
              threeWordResult "p01_t1_b"])]).2.map (fun m => m.error)) =
        ["Error creating puzzle: Puzzle has 6 words, expected 16"] :=
  ⟨rfl, rfl, rfl, rfl, rfl, rfl⟩

end AggregatorTheorems


section RetryTheorems

open RetryModel

theorem retryLoop_allNet (baseDelay : ℝ) (oracle : Nat → ApiOutcome) :
    ∀ (n i : Nat) (ds : List ℝ), 1 ≤ n →
      (∀ j, j < n → oracle (i + j) = .networkError) →
      retryLoop baseDelay oracle n i ds =
        ⟨.fatal,
          ds ++ (List.range' i (n - 1)).map (fun j => baseDelay * 2 ^ j),
          i + n⟩ := by
  intro n
  induction n with
  | zero => omega
  | succ m ih =>
      intro i ds _ hnet
      cases m with
      | zero =>
          have h0 : oracle i = .networkError := by
            simpa using hnet 0 (by omega)
          simp [retryLoop, h0]
      | succ m' =>
          have h0 : oracle i = .networkError := by
            simpa using hnet 0 (by omega)
          have hstep : retryLoop baseDelay oracle (m' + 1 + 1) i ds =
              retryLoop baseDelay oracle (m' + 1) (i + 1)
                (ds ++ [baseDelay * 2 ^ i]) := by
            conv_lhs => rw [retryLoop]
            rw [h0]
            simp
          have hrec := ih (i + 1) (ds ++ [baseDelay * 2 ^ i]) (by omega)
            (fun j hj => by
              have := hnet (j + 1) (by omega)
              simpa [Nat.add_assoc, Nat.add_comm 1 j] using this)
          rw [hstep, hrec]
          have hr : List.range' i (m' + 1) = i :: List.range' (i + 1) m' := by
            simpa using List.range'_succ i m' 1
          simp [hr]
          omega

theorem retryLoop_apiAt (baseDelay : ℝ) (oracle : Nat → ApiOutcome) :
    ∀ (k n i : Nat) (ds : List ℝ), k < n → oracle (i + k) = .apiError →
      (∀ j, j < k → oracle (i + j) = .networkError) →
      retryLoop baseDelay oracle n i ds =
        ⟨.fatal, ds ++ (List.range' i k).map (fun j => baseDelay * 2 ^ j),
          i + k + 1⟩ := by
  intro k
  induction k with
  | zero =>
      intro n i ds hk hapi _
      cases n with
      | zero => omega
      | succ m =>
          have h0 : oracle i = .apiError := by simpa using hapi
          simp [retryLoop, h0]
  | succ k' ih =>
      intro n i ds hk hapi hnet
      cases n with
      | zero => omega
      | succ m =>
          have h0 : oracle i = .networkError := by
            simpa using hnet 0 (by omega)
          obtain ⟨m', rfl⟩ : ∃ m', m = m' + 1 := by
            cases m with
            | zero => omega
            | succ m' => exact ⟨m', rfl⟩
          have hstep : retryLoop baseDelay oracle (m' + 1 + 1) i ds =
              retryLoop baseDelay oracle (m' + 1) (i + 1)
                (ds ++ [baseDelay * 2 ^ i]) := by
            conv_lhs => rw [retryLoop]
            rw [h0]
            simp
          have hrec := ih (m' + 1) (i + 1) (ds ++ [baseDelay * 2 ^ i])
            (by omega)
            (by
              have := hapi
              simpa [Nat.add_assoc, Nat.add_comm 1 k'] using this)
            (fun j hj => by
              have := hnet (j + 1) (by omega)
              simpa [Nat.add_assoc, Nat.add_comm 1 j] using this)
          rw [hstep, hrec]
          have hr : List.range' i (k' + 1) = i :: List.range' (i + 1) k' := by
            simpa using List.range'_succ i k' 1
          simp [hr]
          omega

/--
C6: per batch embedding call, network/timeout-class failures
(`ConnectionError`/`TimeoutError`/`OSError`) are retried with exponential
backoff — the sleep before retrying attempt `i + 1` is
`retry_base_delay * 2 ^ i` — until the configured attempt budget
`max_retries` is exhausted, at which point the call escalates to a fatal
error (`sys.exit(1)`); a non-network failure (auth, quota, malformed
response) at any attempt exits fatally at once, making no further attempt
and recording no backoff sleep for that attempt.
-/
theorem c6_retry_policy (maxRetries : Nat) (baseDelay : ℝ)
    (oracle : Nat → ApiOutcome) :
    (1 ≤ maxRetries → (∀ i, i < maxRetries → oracle i = .networkError) →
      generateEmbeddingsRetry maxRetries baseDelay oracle =
        ⟨.fatal,
          (List.range (maxRetries - 1)).map (fun i => baseDelay * 2 ^ i),
          maxRetries⟩) ∧
      (∀ k, k < maxRetries → oracle k = .apiError →
        (∀ i, i < k → oracle i = .networkError) →
        generateEmbeddingsRetry maxRetries baseDelay oracle =
          ⟨.fatal, (List.range k).map (fun i => baseDelay * 2 ^ i), k + 1⟩) := by
  constructor
  · intro h1 hnet
    have := retryLoop_allNet baseDelay oracle maxRetries 0 [] h1
      (fun j hj => by simpa using hnet j hj)
    simpa [generateEmbeddingsRetry, List.range_eq_range'] using this
  · intro k hk hapi hnet
    have := retryLoop_apiAt baseDelay oracle k maxRetries 0 []
      hk (by simpa using hapi) (fun j hj => by simpa using hnet j hj)
    simpa [generateEmbeddingsRetry, List.range_eq_range'] using this

/--
C6, witness: with `max_retries = 3`, `retry_base_delay = 1` and every
attempt hitting a network error, the loop sleeps `1, 2` (exponential
backoff) and exits fatally after exactly 3 attempts; and with a
non-network failure on the very first attempt it exits fatally after 1
attempt with no sleeps.
-/
theorem c6_retry_policy_witness :
    (1 ≤ 3 ∧
        generateEmbeddingsRetry 3 1 (fun _ => ApiOutcome.networkError) =
          ⟨.fatal, (List.range 2).map (fun i => (1 : ℝ) * 2 ^ i), 3⟩) ∧
      (0 < 3 ∧
        generateEmbeddingsRetry 3 1 (fun _ => ApiOutcome.apiError) =
          ⟨.fatal, (List.range 0).map (fun i => (1 : ℝ) * 2 ^ i), 1⟩) := by
  refine ⟨⟨by decide, ?_⟩, ⟨by decide, ?_⟩⟩
  · exact (c6_retry_policy 3 1 (fun _ => ApiOutcome.networkError)).1
      (by decide) (fun i _ => rfl)
  · exact (c6_retry_policy 3 1 (fun _ => ApiOutcome.apiError)).2 0
      (by decide) rfl (fun i hi => absurd hi (Nat.not_lt_zero i))

end RetryTheorems


section CacheTheorems

open DedupModel CacheModel

theorem lookupEntry_putEntry_self (c : Cache) (k : DedupModel.Word)
    (e : EmbeddingEntry) : lookupEntry (putEntry c k e) k = some e := by
  induction c with
  | nil => simp [putEntry, lookupEntry]
  | cons ke rest ih =>
      obtain ⟨k', e'⟩ := ke
      by_cases h : k' = k
      · simp [putEntry, lookupEntry, h]
      · simp [putEntry, lookupEntry, h, ih]

theorem lookupEntry_putEntry_ne (c : Cache) (k k' : DedupModel.Word)
    (e : EmbeddingEntry) (h : k ≠ k') :
    lookupEntry (putEntry c k e) k' = lookupEntry c k' := by
  induction c with
  | nil => simp [putEntry, lookupEntry, h]
  | cons ke rest ih =>
      obtain ⟨k0, e0⟩ := ke
      by_cases h0 : k0 = k
      · subst h0
        simp [putEntry, lookupEntry, h]
      · by_cases h1 : k0 = k'
        · subst h1
          simp [putEntry, lookupEntry, h0]
        · simp [putEntry, lookupEntry, h0, h1, ih]

theorem lookupEntry_eq_none (c : Cache) (k : DedupModel.Word)
    (h : k ∉ c.map Prod.fst) : lookupEntry c k = none := by
  induction c with
  | nil => rfl
  | cons ke rest ih =>
      obtain ⟨k0, e0⟩ := ke
      simp only [List.map_cons, List.mem_cons] at h
      push_neg at h
      have h0 : ¬k0 = k := fun he => h.1 he.symm
      simp [lookupEntry, h0, ih h.2]

theorem mem_keys_putEntry (c : Cache) (k : DedupModel.Word)
    (e : EmbeddingEntry) (x : DedupModel.Word) :
    x ∈ (putEntry c k e).map Prod.fst ↔ x ∈ c.map Prod.fst ∨ x = k := by
  induction c with
  | nil => simp [putEntry]
  | cons ke rest ih =>
      obtain ⟨k0, e0⟩ := ke
      by_cases h : k0 = k
      · subst h
        simp only [putEntry, eq_self_iff_true, ite_true, List.map_cons,
          List.mem_cons]
        constructor
        · exact fun hx => Or.inl hx
        · rintro (hx | hx)
          · exact hx
          · exact Or.inl hx
      · simp only [putEntry, if_neg h, List.map_cons, List.mem_cons, ih]
        exact or_assoc.symm

theorem nodup_keys_putEntry (c : Cache) (k : DedupModel.Word)
    (e : EmbeddingEntry) (h : (c.map Prod.fst).Nodup) :
    ((putEntry c k e).map Prod.fst).Nodup := by
  induction c with
  | nil => simp [putEntry]
  | cons ke rest ih =>
      obtain ⟨k0, e0⟩ := ke
      simp only [List.map_cons, List.nodup_cons] at h
      by_cases h0 : k0 = k
      · subst h0
        rw [putEntry, if_pos rfl]
        simp only [List.map_cons, List.nodup_cons]
        exact h
      · rw [putEntry, if_neg h0]
        simp only [List.map_cons, List.nodup_cons]
        refine ⟨?_, ih h.2⟩
        intro hmem
        rcases (mem_keys_putEntry rest k e k0).1 hmem with h2 | h2
        · exact h.1 h2
        · exact h0 h2

theorem mem_putEntry (c : Cache) (k : DedupModel.Word) (e : EmbeddingEntry)
    (ke : DedupModel.Word × EmbeddingEntry) (hke : ke ∈ putEntry c k e) :
    ke ∈ c ∨ ke = (k, e) := by
  induction c with
  | nil => simpa [putEntry] using hke
  | cons ke0 rest ih =>
      obtain ⟨k0, e0⟩ := ke0
      by_cases h0 : k0 = k
      · subst h0
        rw [putEntry, if_pos rfl] at hke
        simp only [List.mem_cons] at hke
        rcases hke with h1 | h1
        · exact Or.inr (by simpa using h1)
        · exact Or.inl (List.mem_cons_of_mem _ h1)
      · rw [putEntry, if_neg h0] at hke
        simp only [List.mem_cons] at hke
        rcases hke with h1 | h1
        · exact Or.inl (by simp [h1])
        · rcases ih h1 with h2 | h2
          · exact Or.inl (List.mem_cons_of_mem _ h2)
          · exact Or.inr h2

theorem putEntry_ne_nil (c : Cache) (k : DedupModel.Word)
    (e : EmbeddingEntry) : putEntry c k e ≠ [] := by
  cases c with
  | nil => simp [putEntry]
  | cons ke rest =>
      obtain ⟨k0, e0⟩ := ke
      by_cases h : k0 = k
      · simp [putEntry, h]
      · simp [putEntry, h]

theorem cacheWF_cachePut (d : Nat) (c : Cache) (w : DedupModel.Word)
    (v : List ℝ) (ts : ℝ) (th : Option DedupModel.Word) (wt : Option String)
    (sim : Option ℝ) (hwf : CacheWF d c) (hlen : v.length = d) :
    CacheWF d (cachePut c w v ts th wt sim) := by
  constructor
  · intro ke hke
    rcases mem_putEntry _ _ _ _ hke with h | h
    · exact hwf.1 ke h
    · subst h
      exact ⟨rfl, hlen⟩
  · exact nodup_keys_putEntry _ _ _ hwf.2

theorem cacheWF_nil (d : Nat) : CacheWF d [] := ⟨by simp, by simp⟩

theorem cacheWF_applyPuts (d : Nat) (ps : List PutCall) :
    ∀ c : Cache, CacheWF d c → (∀ p ∈ ps, p.vec.length = d) →
      CacheWF d (applyPuts c ps) := by
  induction ps with
  | nil => intro c hwf _; exact hwf
  | cons p ps ih =>
      intro c hwf hps
      exact ih _
        (cacheWF_cachePut d c p.word p.vec p.ts p.theme p.word_type p.sim hwf
          (hps p (List.mem_cons_self _ _)))
        (fun q hq => hps q (List.mem_cons_of_mem _ hq))

theorem parseEmbeddingCells_num (xs : List ℝ) :
    parseEmbeddingCells (xs.map CsvCell.num) = some xs := by
  induction xs with
  | nil => rfl
  | cons x xs ih => simp [parseEmbeddingCells, parseFloatCell, ih]

theorem loadRow_rowOfEntry (e : EmbeddingEntry) (d : Nat)
    (hlen : e.embedding.length = d) (hd : 0 < d) :
    ∃ sim', loadRow (rowOfEntry d e) =
      some { e with similarity_to_theme := sim' } := by
  obtain ⟨word, emb, ts, th, wt, sim⟩ := e
  simp only at hlen
  obtain ⟨e0, es, rfl⟩ : ∃ e0 es, emb = e0 :: es := by
    cases emb with
    | nil => simp at hlen; omega
    | cons e0 es => exact ⟨e0, es, rfl⟩
  have hzero : d - (es.length + 1) = 0 := by
    simp only [List.length_cons] at hlen
    omega
  cases sim with
  | none =>
      refine ⟨none, ?_⟩
      simp [loadRow, rowOfEntry, simCellOfEntry, hzero, parseEmbeddingCells,
        parseEmbeddingCells_num, parseFloatCell, parseOptionalFloatCell]
  | some x =>
      by_cases hx : x = 0
      · refine ⟨none, ?_⟩
        simp [loadRow, rowOfEntry, simCellOfEntry, hx, hzero,
          parseEmbeddingCells, parseEmbeddingCells_num, parseFloatCell,
          parseOptionalFloatCell]
      · refine ⟨some x, ?_⟩
        simp [loadRow, rowOfEntry, simCellOfEntry, hx, hzero,
          parseEmbeddingCells, parseEmbeddingCells_num, parseFloatCell,
          parseOptionalFloatCell]

theorem backupToCsv_eq_rows (c : Cache) (d : Nat)
    (hall : ∀ ke ∈ c, ke.2.embedding.length = d) (hne : c ≠ [])
    (disk : Option (List CsvRow)) :
    backupToCsv c disk = some (c.map (fun ke => rowOfEntry d ke.2)) := by
  cases c with
  | nil => exact absurd rfl hne
  | cons ke0 rest =>
      obtain ⟨k0, e0⟩ := ke0
      have hd0 : e0.embedding.length = d :=
        hall (k0, e0) (List.mem_cons_self _ _)
      have hcond : (((k0, e0) :: rest).any fun ke =>
          e0.embedding.length < ke.2.embedding.length) = false := by
        simp only [List.any_eq_false, decide_eq_true_eq]
        intro ke hke
        have := hall ke hke
        omega
      simp [backupToCsv, hcond, hd0]
      intro x x1 hmem hlt
      have hx := hall (x, x1) (List.mem_cons_of_mem _ hmem)
      simp only at hx
      omega

theorem load_rows_lookup (d : Nat) (hd : 0 < d) :
    ∀ c : Cache,
      (∀ ke ∈ c, ke.1 = normalizeKey ke.2.word ∧ ke.2.embedding.length = d) →
      (c.map Prod.fst).Nodup →
      ∀ (acc : Cache) (k : DedupModel.Word),
        (lookupEntry (loadFromCsv (some (c.map (fun ke => rowOfEntry d ke.2)))
              acc) k).map (·.embedding) =
          ((lookupEntry c k).map (·.embedding)).or
            ((lookupEntry acc k).map (·.embedding)) := by
  intro c
  induction c with
  | nil =>
      intro _ _ acc k
      simp [loadFromCsv, lookupEntry, Option.none_or]
  | cons ke0 rest ih =>
      obtain ⟨k0, e0⟩ := ke0
      intro hwf hnd acc k
      obtain ⟨hk0, hlen0⟩ := hwf (k0, e0) (List.mem_cons_self _ _)
      simp only at hk0 hlen0
      obtain ⟨sim2, hrow⟩ := loadRow_rowOfEntry e0 d hlen0 hd
      have hword :
          normalizeKey ({ e0 with similarity_to_theme := sim2 }).word = k0 :=
        hk0.symm
      have hstep :
          loadFromCsv
              (some (((k0, e0) :: rest).map (fun ke => rowOfEntry d ke.2)))
              acc =
            loadFromCsv (some (rest.map (fun ke => rowOfEntry d ke.2)))
              (putEntry acc k0 { e0 with similarity_to_theme := sim2 }) := by
        simp only [List.map_cons, loadFromCsv, List.foldl_cons, hrow, hword]
      rw [hstep]
      have hnd' : k0 ∉ rest.map Prod.fst ∧ (rest.map Prod.fst).Nodup := by
        rw [List.map_cons, List.nodup_cons] at hnd
        exact hnd
      rw [ih (fun ke hke => hwf ke (List.mem_cons_of_mem _ hke)) hnd'.2]
      by_cases hk : k0 = k
      · subst hk
        have hnone : lookupEntry rest k0 = none :=
          lookupEntry_eq_none rest k0 hnd'.1
        simp [lookupEntry, hnone, lookupEntry_putEntry_self, Option.none_or]
      · rw [lookupEntry_putEntry_ne acc k0 k _ hk]
        simp [lookupEntry, hk]

/--
C4: building a cache by any sequence of `put` calls of the run's fixed
embedding dimension and then putting `(w, v)` makes `get w` return `v`;
and after `backup_to_csv()` followed by `_load_from_csv()` into a fresh
cache, `get` agrees with the original cache on every word — in
particular it still returns the last value put for every previously-put
word.
-/
theorem c4_cache_roundtrip (ps : List CacheModel.PutCall)
    (w : DedupModel.Word) (v : List ℝ) (ts : ℝ) (d : Nat) (hd : 0 < d)
    (hv : v.length = d) (hps : ∀ p ∈ ps, p.vec.length = d) :
    cacheGet (cachePut (applyPuts [] ps) w v ts none none none) w = some v ∧
      ∀ u : DedupModel.Word,
        cacheGet
            (loadFromCsv
              (backupToCsv (cachePut (applyPuts [] ps) w v ts none none none)
                none)
              [])
            u =
          cacheGet (cachePut (applyPuts [] ps) w v ts none none none) u := by
  have hwf : CacheWF d (cachePut (applyPuts [] ps) w v ts none none none) :=
    cacheWF_cachePut d _ w v ts none none none
      (cacheWF_applyPuts d ps [] (cacheWF_nil d) hps) hv
  constructor
  · unfold cacheGet cachePut
    rw [lookupEntry_putEntry_self]
    rfl
  · intro u
    have hne : cachePut (applyPuts [] ps) w v ts none none none ≠ [] :=
      putEntry_ne_nil _ _ _
    rw [backupToCsv_eq_rows _ d (fun ke hke => (hwf.1 ke hke).2) hne none]
    unfold cacheGet
    rw [load_rows_lookup d hd _
      (fun ke hke => hwf.1 ke hke) hwf.2 [] (normalizeKey u)]
    simp [lookupEntry, Option.or_none]

/--
C4, witness: a single `put("a", [1])` into an empty cache; `get "a"`
returns `[1]` both before and after the backup/load round trip.
-/
theorem c4_cache_roundtrip_witness :
    (0 : Nat) < 1 ∧ [(1 : ℝ)].length = 1 ∧
      cacheGet (cachePut (applyPuts [] []) ['a'] [(1 : ℝ)] 0 none none none)
          ['a'] = some [(1 : ℝ)] ∧
      cacheGet
          (loadFromCsv
            (backupToCsv
              (cachePut (applyPuts [] []) ['a'] [(1 : ℝ)] 0 none none none)
              none)
            [])
          ['a'] =
        cacheGet (cachePut (applyPuts [] []) ['a'] [(1 : ℝ)] 0 none none none)
          ['a'] := by
  have h := c4_cache_roundtrip [] ['a'] [(1 : ℝ)] 0 1 (by decide) rfl
    (fun p hp => absurd hp (List.not_mem_nil p))
  exact ⟨by decide, rfl, h.1, h.2 ['a']⟩

/--
C7: `_load_from_csv` tolerates a missing cache file by leaving the cache
as it started (empty at initialization); and loading a present file is
exactly loading the parseable rows in order — each malformed row (one on
which `loadRow` fails) is skipped individually while every well-formed
row is still stored, so a malformed row never aborts the load.
-/
theorem c7_load_skips_malformed :
    (∀ c : Cache, loadFromCsv none c = c) ∧
      ∀ (rows : List CsvRow) (c : Cache),
        loadFromCsv (some rows) c =
          (rows.filterMap loadRow).foldl
            (fun acc e => putEntry acc (normalizeKey e.word) e) c := by
  refine ⟨fun c => rfl, ?_⟩
  intro rows
  induction rows with
  | nil => intro c; rfl
  | cons r rows ih =>
      intro c
      cases hr : loadRow r with
      | none =>
          simp only [loadFromCsv, List.foldl_cons, List.filterMap_cons, hr]
          exact ih c
      | some e =>
          simp only [loadFromCsv, List.foldl_cons, List.filterMap_cons, hr]
          exact ih _

/--
C7, witness: loading a file with one well-formed row between two
malformed rows (a missing word cell and an unparseable embedding cell)
stores exactly the well-formed entry.
-/
theorem c7_load_skips_malformed_witness :
    loadFromCsv
        (some
          [{ word := none, theme := none, word_type := none,
             similarity_to_theme := CsvCell.blank,
             timestamp := CsvCell.num 0, embedding := [CsvCell.num 1] },
           { word := some ['a'], theme := none, word_type := none,
             similarity_to_theme := CsvCell.blank,
             timestamp := CsvCell.num 0, embedding := [CsvCell.num 1] },
           { word := some ['b'], theme := none, word_type := none,
             similarity_to_theme := CsvCell.blank,
             timestamp := CsvCell.num 0, embedding := [CsvCell.junk] }])
        [] =
      ([{ word := none, theme := none, word_type := none,
          similarity_to_theme := CsvCell.blank,
          timestamp := CsvCell.num 0, embedding := [CsvCell.num 1] },
        { word := some ['a'], theme := none, word_type := none,
          similarity_to_theme := CsvCell.blank,
          timestamp := CsvCell.num 0, embedding := [CsvCell.num 1] },
        { word := some ['b'], theme := none, word_type := none,
          similarity_to_theme := CsvCell.blank,
          timestamp := CsvCell.num 0,
          embedding := [CsvCell.junk] }].filterMap loadRow).foldl
        (fun acc e => putEntry acc (normalizeKey e.word) e) [] :=
  (c7_load_skips_malformed.2 _ [])

/--
C10: `backup_to_csv` on an empty cache returns without writing, leaving
the previous on-disk snapshot untouched; in particular `clear()` followed
by `backup_to_csv()` never truncates, overwrites or deletes the existing
snapshot.
-/
theorem c10_empty_backup_keeps_snapshot :
    (∀ disk : Option (List CsvRow), backupToCsv [] disk = disk) ∧
      ∀ (c : Cache) (disk : Option (List CsvRow)),
        backupToCsv (CacheModel.clear c) disk = disk :=
  ⟨fun _ => rfl, fun _ _ => rfl⟩

end CacheTheorems
